import Mathlib

/-!
Verification of the bubble layout engine and incremental renderer of the
"thinking of you" web app.

The source is JavaScript operating on IEEE floats and the DOM.  The shallow
embedding models numbers by exact rationals (the real-arithmetic reading of
the float code), the DOM container by an explicit structure, and the
transcendental library functions `Math.cos`, `Math.sin`, `Math.sqrt` applied
to a spiral index, and the constant `Math.PI`, by an abstract `Trig`
structure of rational-valued functions: every theorem below is proved for an
arbitrary such model, so it holds in particular for the real cosine and sine.
The one comparison on `Math.sqrt` that the algorithms perform,
`Math.sqrt d < m` with `d` a sum of two squares, is encoded exactly by
`sqrtLtB` through squaring; the lemma `sqrtLtB_iff_sqrt_lt` grounds that
encoding against `Real.sqrt`.
-/

namespace ThinkingOfYou

/-- A bubble record as built in `initApp`s `onSnapshot` callbacks:
`{ id: d.id, ts: d.data().ts, index: i, size: sizeForIndex(i), gradient: ... }`. -/
structure Bubble where
  id : String
  ts : Int
  index : Nat
  size : Rat
  gradient : String
deriving DecidableEq, Repr

/-- The result of the layout engine for one bubble: the JS spread
`{ ...b, x, y, cx, cy }` — all input fields plus the placement. -/
structure Placed where
  bubble : Bubble
  x : Rat
  y : Rat
  cx : Rat
  cy : Rat
deriving DecidableEq, Repr

/-- An entry of the `placed` array of the ring-scan `layoutBubbles`:
`{ cx, cy, r }`. -/
structure Circ where
  cx : Rat
  cy : Rat
  r : Rat
deriving DecidableEq, Repr

/-- Abstract model of the transcendental float functions used by the source:
`Math.PI`, `Math.cos`, `Math.sin`, and `Math.sqrt` (the latter only as applied
to the spiral index `i`; the sqrt of a squared distance is handled exactly by
`sqrtLtB`).  All layout theorems hold for every such model. -/
structure Trig where
  pi : Rat
  cos : Rat → Rat
  sin : Rat → Rat
  sqrtQ : Rat → Rat

/-- Exact encoding of the float comparison `Math.sqrt d < m` for `d ≥ 0`:
`sqrt d < m` holds iff `m` is positive and `d < m * m`. -/
def sqrtLtB (d m : Rat) : Bool :=
  decide (0 < m) && decide (d < m * m)

/-- `GOLDEN_ANGLE = 2.39996` of the spiral variant. -/
def goldenAngle : Rat := 239996 / 100000

/-! ### Ring-scan layout engine (canonical variant)

Source: `layoutBubbles(bubbles, containerW, containerH, cyOffset = 0)`.
For each bubble after the first it scans concentric rings outward from
`minStartRadius = r + 6` in steps of 2 up to 800; on each ring it samples
`angleSteps = max(36, ceil(2·π·ring/4))` angles, and takes the first sampled
point whose distance to every placed circle is at least the two radii plus a
6px gap; if no ring yields such a point the bubble falls back to
`(cx + placed.length·10, cy + placed.length·10)`. -/

/-- Number of iterations of `for (let ring = minStart; ring <= 800; ring += 2)`:
the visited values are `minStart + 2k` for `k ≤ ⌊(800 - minStart)/2⌋`
(none when `minStart > 800`). -/
def ringCount (minStart : Rat) : Nat :=
  if minStart ≤ 800 then (⌊(800 - minStart) / 2⌋).toNat + 1 else 0

/-- The ring radii visited by the scan, in order. -/
def ringList (minStart : Rat) : List Rat :=
  (List.range (ringCount minStart)).map fun k => minStart + 2 * (k : Rat)

/-- `Math.max(36, Math.ceil(2 * Math.PI * ring / 4))`; `Nat.ceil` agrees with
`Math.max 36` of a possibly negative `Math.ceil` since both clamp to 36. -/
def angleSteps (t : Trig) (ring : Rat) : Nat :=
  max 36 ⌈2 * t.pi * ring / 4⌉₊

/-- `placed.some(p => Math.sqrt(dx*dx + dy*dy) < r + p.r + 6)`. -/
def overlapsAny (placed : List Circ) (px py r : Rat) : Bool :=
  placed.any fun p =>
    sqrtLtB ((px - p.cx) * (px - p.cx) + (py - p.cy) * (py - p.cy)) (r + p.r + 6)

/-- The double scan loop of the ring variant: first non-overlapping sampled
point in ring-then-angle order, `none` when the budget is exhausted. -/
def firstFit (t : Trig) (cx cy r : Rat) (placed : List Circ) : Option (Rat × Rat) :=
  (ringList (r + 6)).findSome? fun ring =>
    (List.range (angleSteps t ring)).findSome? fun (a : Nat) =>
      let angle := (a : Rat) / (angleSteps t ring : Rat) * 2 * t.pi
      let px := cx + t.cos angle * ring
      let py := cy + t.sin angle * ring
      if overlapsAny placed px py r then none else some (px, py)

/-- The body of `bubbles.map` with the mutable `placed` array made explicit:
first bubble at the cluster centre, later bubbles at the first fit of the
ring scan, falling back to `(cx + placed.length·10, cy + placed.length·10)`. -/
def layoutGo (t : Trig) (cx cy : Rat) (placed : List Circ) : List Bubble → List Placed
  | [] => []
  | b :: bs =>
    let r := b.size / 2
    if placed.isEmpty then
      ⟨b, cx - r, cy - r, cx, cy⟩ :: layoutGo t cx cy (placed ++ [⟨cx, cy, r⟩]) bs
    else
      let found := firstFit t cx cy r placed
      let px := match found with | some c => c.1 | none => cx + (placed.length : Rat) * 10
      let py := match found with | some c => c.2 | none => cy + (placed.length : Rat) * 10
      ⟨b, px - r, py - r, px, py⟩ :: layoutGo t cx cy (placed ++ [⟨px, py, r⟩]) bs

/-- `layoutBubbles(bubbles, containerW, containerH, cyOffset = 0)` of the
canonical ring-scan variant: `cx = containerW/2`, `cy = containerH/2 + cyOffset`. -/
def layoutBubbles (t : Trig) (bubbles : List Bubble) (containerW containerH cyOffset : Rat) :
    List Placed :=
  if bubbles.isEmpty then []
  else layoutGo t (containerW / 2) (containerH / 2 + cyOffset) [] bubbles

/-- The circle that `layoutBubbles` pushes onto `placed` for an output. -/
def circOf (p : Placed) : Circ := ⟨p.cx, p.cy, p.bubble.size / 2⟩

/-- The search budget suffices for the ring scan: the step relation of
`layoutGo` with `true` only when every non-first bubble finds a fit. -/
def budgetGo (t : Trig) (cx cy : Rat) (placed : List Circ) : List Bubble → Bool
  | [] => true
  | b :: bs =>
    let r := b.size / 2
    if placed.isEmpty then budgetGo t cx cy (placed ++ [⟨cx, cy, r⟩]) bs
    else
      match firstFit t cx cy r placed with
      | some c => budgetGo t cx cy (placed ++ [⟨c.1, c.2, r⟩]) bs
      | none => false

/-- The ring scan budget suffices for a whole `layoutBubbles` call. -/
def budgetOk (t : Trig) (bubbles : List Bubble) (containerW containerH cyOffset : Rat) : Bool :=
  budgetGo t (containerW / 2) (containerH / 2 + cyOffset) [] bubbles

/-! ### Golden-angle spiral layout engine (earlier variant)

Source: the `layoutBubbles` of the spiral variant: `cx = containerW/2`,
`cy = containerH/2 - 20`; bubble `i > 0` tries
`radius = sqrt(i)·size·0.62 + (step-1)·4`, `angle = i·GOLDEN_ANGLE + (step-1)·0.15`
for `step = 1..300`, accepting the first candidate at distance at least the two
radii plus a 4px gap from every placed bubble, with the overlap-permitted
fallback `radius = sqrt(i)·size·0.8`, `angle = i·GOLDEN_ANGLE`. -/

/-- `placed.some(...)` of the spiral variant: gap 4, radii via `p.size / 2`. -/
def spiralOverlaps (placed : List Placed) (px py r : Rat) : Bool :=
  placed.any fun p =>
    sqrtLtB ((px - p.cx) * (px - p.cx) + (py - p.cy) * (py - p.cy))
      (r + p.bubble.size / 2 + 4)

/-- The 300-step retry loop of the spiral variant, first non-overlapping
candidate or `none`. -/
def spiralFirstFit (t : Trig) (i : Nat) (b : Bubble) (cx cy : Rat) (placed : List Placed) :
    Option (Rat × Rat) :=
  (List.range 300).findSome? fun (s : Nat) =>
    let step : Rat := (s : Rat) + 1
    let radius := t.sqrtQ (i : Rat) * b.size * (62 / 100) + (step - 1) * 4
    let angle := (i : Rat) * goldenAngle + (step - 1) * (15 / 100)
    let px := cx + t.cos angle * radius
    let py := cy + t.sin angle * radius
    if spiralOverlaps placed px py (b.size / 2) then none else some (px, py)

/-- The `bubbles.forEach` of the spiral variant with the `placed` accumulator
and running index made explicit; returns the final `placed`. -/
def spiralGo (t : Trig) (cx cy : Rat) (i : Nat) (placed : List Placed) :
    List Bubble → List Placed
  | [] => placed
  | b :: bs =>
    let r := b.size / 2
    if i = 0 then
      spiralGo t cx cy (i + 1) (placed ++ [⟨b, cx - r, cy - r, cx, cy⟩]) bs
    else
      match spiralFirstFit t i b cx cy placed with
      | some c =>
        spiralGo t cx cy (i + 1) (placed ++ [⟨b, c.1 - r, c.2 - r, c.1, c.2⟩]) bs
      | none =>
        let radius := t.sqrtQ (i : Rat) * b.size * (8 / 10)
        let angle := (i : Rat) * goldenAngle
        let px := cx + t.cos angle * radius
        let py := cy + t.sin angle * radius
        spiralGo t cx cy (i + 1) (placed ++ [⟨b, px - r, py - r, px, py⟩]) bs

/-- `layoutBubbles(bubbles, containerW, containerH)` of the spiral variant. -/
def layoutBubblesSpiral (t : Trig) (bubbles : List Bubble) (containerW containerH : Rat) :
    List Placed :=
  if bubbles.isEmpty then []
  else spiralGo t (containerW / 2) (containerH / 2 - 20) 0 [] bubbles

/-- The 300-step budget suffices: step relation of `spiralGo`, `true` only when
every non-first bubble finds a fit. -/
def spiralBudgetGo (t : Trig) (cx cy : Rat) (i : Nat) (placed : List Placed) :
    List Bubble → Bool
  | [] => true
  | b :: bs =>
    let r := b.size / 2
    if i = 0 then
      spiralBudgetGo t cx cy (i + 1) (placed ++ [⟨b, cx - r, cy - r, cx, cy⟩]) bs
    else
      match spiralFirstFit t i b cx cy placed with
      | some c =>
        spiralBudgetGo t cx cy (i + 1) (placed ++ [⟨b, c.1 - r, c.2 - r, c.1, c.2⟩]) bs
      | none => false

/-- The spiral budget suffices for a whole `layoutBubblesSpiral` call. -/
def budgetOkSpiral (t : Trig) (bubbles : List Bubble) (containerW containerH : Rat) : Bool :=
  if bubbles.isEmpty then true
  else spiralBudgetGo t (containerW / 2) (containerH / 2 - 20) 0 [] bubbles

/-! ### Incremental renderer (canonical variant)

Source: `renderBubbles(bubbleData, containerId)` together with the
module-level `renderedIds` and `lastData` maps.  The model is per
container: `RenderState` holds the optional container element
(`document.getElementById`), the known-id set `renderedIds[containerId]`
(a JS `Set`, modelled as a duplicate-free insertion-ordered list), and the
cached `lastData[containerId]`. -/

/-- `Math.round`: round half toward positive infinity. -/
def jsRound (q : Rat) : Int := ⌊q + 1 / 2⌋

/-- `BASE_SIZES = [92, 112, 76, 130, 88, 106, 118, 80, 100, 96, 122, 84]`. -/
def BASE_SIZES : List Rat := [92, 112, 76, 130, 88, 106, 118, 80, 100, 96, 122, 84]

/-- `sizeForIndex(i, scale) = Math.round(BASE_SIZES[i % BASE_SIZES.length] * scale)`. -/
def sizeForIndex (i : Nat) (scale : Rat) : Rat :=
  (jsRound ((BASE_SIZES.getD (i % BASE_SIZES.length) 0) * scale) : Int)

/-- The `cyOffset` that `renderBubbles` passes for the main field:
`Math.round(-0.10 * containerH)`. -/
def mainFieldCyOffset (containerH : Rat) : Rat :=
  (jsRound (-(10 / 100 : Rat) * containerH) : Int)

/-- One `.bubble-anchor` element with its inner `.bubble`: the `data-id`
attribute, the styles written by the renderer, and the creation-time-only
inner fields (float delay and the time label's timestamp). -/
structure Anchor where
  dataId : String
  left : Rat
  top : Rat
  width : Rat
  height : Rat
  bubbleSize : Rat
  background : String
  floatDelay : Rat
  labelTs : Int
deriving DecidableEq, Repr

/-- A bubble-field container element: its measured rectangle, its offset
fallback dimensions, and its `.bubble-anchor` children in DOM order. -/
structure Container where
  rectW : Rat
  rectH : Rat
  offsetW : Rat
  offsetH : Rat
  anchors : List Anchor
deriving DecidableEq, Repr

/-- The renderer state for one container key. -/
structure RenderState where
  container : Option Container
  known : List String
  lastData : Option (List Bubble)
deriving DecidableEq, Repr

/-- JS `Set.add`: append if absent (insertion order preserved). -/
def setAdd (s : List String) (x : String) : List String :=
  if x ∈ s then s else s ++ [x]

/-- JS `Set.delete`. -/
def setDelete (s : List String) (x : String) : List String :=
  s.filter fun y => y ≠ x

/-- The removal loop: for each `.bubble-anchor[data-id]` whose id is not in
the current id set, remove the node and delete its id from the known-set. -/
def removePass (currentIds : List String) : List Anchor → List String →
    List Anchor × List String
  | [], known => ([], known)
  | a :: rest, known =>
    if currentIds.contains a.dataId then
      let res := removePass currentIds rest known
      (a :: res.1, res.2)
    else
      removePass currentIds rest (setDelete known a.dataId)

/-- The update-in-place branch: rewrite left/top/width/height, the
`--bubble-size` custom property, and the inner bubble background. -/
def updateAnchor (p : Placed) (a : Anchor) : Anchor :=
  { a with
    left := p.x
    top := p.y
    width := p.bubble.size
    height := p.bubble.size
    bubbleSize := p.bubble.size
    background := p.bubble.gradient }

/-- The create branch: a brand-new anchor with inner bubble, float delay
`(b.index % 7) * 0.65`, and the time label built from `b.ts`. -/
def newAnchor (p : Placed) : Anchor :=
  { dataId := p.bubble.id
    left := p.x
    top := p.y
    width := p.bubble.size
    height := p.bubble.size
    bubbleSize := p.bubble.size
    background := p.bubble.gradient
    floatDelay := ((p.bubble.index % 7 : Nat) : Rat) * (65 / 100)
    labelTs := p.bubble.ts }

/-- Write through the first anchor matching the id (`el.querySelector`). -/
def updateFirst (id : String) (p : Placed) : List Anchor → List Anchor
  | [] => []
  | a :: rest =>
    if a.dataId == id then updateAnchor p a :: rest else a :: updateFirst id p rest

/-- One step of `laid.forEach`: update the existing anchor in place, or
append a new anchor and mark the id known. -/
def upsert (acc : List Anchor × List String) (p : Placed) : List Anchor × List String :=
  if acc.1.any fun a => a.dataId == p.bubble.id then
    (updateFirst p.bubble.id p acc.1, acc.2)
  else
    (acc.1 ++ [newAnchor p], setAdd acc.2 p.bubble.id)

/-- `containerW = rect.width || el.offsetWidth || 900`. -/
def measuredW (el : Container) : Rat :=
  if el.rectW ≠ 0 then el.rectW else if el.offsetW ≠ 0 then el.offsetW else 900

/-- `containerH = rect.height || el.offsetHeight || 680`. -/
def measuredH (el : Container) : Rat :=
  if el.rectH ≠ 0 then el.rectH else if el.offsetH ≠ 0 then el.offsetH else 680

/-- `scale = Math.min(containerW, containerH) / 832`. -/
def scaleOf (el : Container) : Rat := min (measuredW el) (measuredH el) / 832

/-- `cyOffset = isMainField ? Math.round(-0.10 * containerH) : 0`. -/
def cyOffsetOf (containerId : String) (el : Container) : Rat :=
  if containerId == "theirBubbleField" then mainFieldCyOffset (measuredH el) else 0

/-- The re-built bubble list with scaled sizes:
`bubbleData.map((b, i) => ({ ...b, size: sizeForIndex(i, scale) }))`. -/
def scaledOf (bubbleData : List Bubble) (scale : Rat) : List Bubble :=
  bubbleData.enum.map fun ib => { ib.2 with size := sizeForIndex ib.1 scale }

/-- The layout computed by a render pass on container `el`. -/
def laidOf (t : Trig) (bubbleData : List Bubble) (containerId : String) (el : Container) :
    List Placed :=
  layoutBubbles t (scaledOf bubbleData (scaleOf el)) (measuredW el) (measuredH el)
    (cyOffsetOf containerId el)

/-- `renderBubbles(bubbleData, containerId)` of the canonical variant for one
container: no-op when the container is missing; otherwise cache the data,
measure the container, scale sizes relative to the 832px design height, shift
the cluster centre up for the main field, lay the bubbles out, remove stale
anchors, and update or create an anchor per placement. -/
def renderBubbles (t : Trig) (bubbleData : List Bubble) (containerId : String)
    (st : RenderState) : RenderState :=
  match st.container with
  | none => st
  | some el =>
    let laid := laidOf t bubbleData containerId el
    let currentIds := bubbleData.map fun b => b.id
    let removed := removePass currentIds el.anchors st.known
    let folded := laid.foldl upsert removed
    { container := some { el with anchors := folded.1 }
      known := folded.2
      lastData := some bubbleData }

/-! ### Grounding of the square-root encoding -/

/-- `sqrtLtB` is exactly the float comparison it encodes: for a nonnegative
radicand, `Math.sqrt d < m` iff `sqrtLtB d m`. -/
theorem sqrtLtB_iff_sqrt_lt (d m : Rat) (_hd : 0 ≤ d) :
    sqrtLtB d m = true ↔ Real.sqrt (d : Real) < (m : Real) := by
  unfold sqrtLtB
  rcases le_or_lt m 0 with hm | hm
  · have hnot : ¬ Real.sqrt (d : Real) < (m : Real) := by
      have h1 : (m : Real) ≤ 0 := by exact_mod_cast hm
      have h2 : 0 ≤ Real.sqrt (d : Real) := Real.sqrt_nonneg _
      exact fun hlt => absurd (lt_of_le_of_lt h2 hlt) (not_lt.mpr h1)
    simp [hnot, not_lt.mpr hm]
  · have hm' : (0 : Real) < (m : Real) := by exact_mod_cast hm
    rw [Real.sqrt_lt' hm']
    have : ((d : Rat) < m * m) ↔ ((d : Real) < (m : Real) ^ 2) := by
      rw [sq]
      constructor
      · intro h; exact_mod_cast h
      · intro h; exact_mod_cast h
    simp [hm, this]

/-- A failed overlap test means the centre distance is at least the required
clearance (trivially so when the clearance bound is nonpositive). -/
theorem sqrtLtB_false_le (d m : Rat) (h : sqrtLtB d m = false) :
    (m : Real) ≤ Real.sqrt (d : Real) := by
  unfold sqrtLtB at h
  rcases Bool.and_eq_false_iff.mp h with h1 | h2
  · have hm : ¬ (0 : Rat) < m := by simpa using h1
    have : (m : Real) ≤ 0 := by exact_mod_cast not_lt.mp hm
    exact le_trans this (Real.sqrt_nonneg _)
  · have hd : m * m ≤ d := by simpa using h2
    have hd' : ((m : Real)) ^ 2 ≤ (d : Real) := by
      rw [sq]; exact_mod_cast hd
    calc (m : Real) ≤ |(m : Real)| := le_abs_self _
      _ = Real.sqrt ((m : Real) ^ 2) := (Real.sqrt_sq_eq_abs _).symm
      _ ≤ Real.sqrt (d : Real) := Real.sqrt_le_sqrt hd'

/-! ### Structural lemmas for the ring-scan layout -/

/-- The relation guaranteed between an earlier placed circle `p` and a later
one `q` by a failed overlap check of the ring variant. -/
def ringSep (p q : Circ) : Prop :=
  sqrtLtB ((q.cx - p.cx) * (q.cx - p.cx) + (q.cy - p.cy) * (q.cy - p.cy))
    (q.r + p.r + 6) = false

/-- The no-overlap clearance invariant between two placed bubbles, at gap
`gap`, stated with the real square root. -/
def clearanceGE (gap : Rat) (A B : Placed) : Prop :=
  ((A.bubble.size / 2 + B.bubble.size / 2 + gap : Rat) : Real) ≤
    Real.sqrt (((A.cx - B.cx) * (A.cx - B.cx) + (A.cy - B.cy) * (A.cy - B.cy) : Rat) : Real)

theorem ringSep_clearance (A B : Placed) (h : ringSep (circOf A) (circOf B)) :
    clearanceGE 6 A B := by
  unfold ringSep circOf at h
  unfold clearanceGE
  have hle := sqrtLtB_false_le _ _ h
  have hd : (B.cx - A.cx) * (B.cx - A.cx) + (B.cy - A.cy) * (B.cy - A.cy) =
      (A.cx - B.cx) * (A.cx - B.cx) + (A.cy - B.cy) * (A.cy - B.cy) := by ring
  have hm : B.bubble.size / 2 + A.bubble.size / 2 + 6 =
      A.bubble.size / 2 + B.bubble.size / 2 + 6 := by ring
  rw [hd, hm] at hle
  exact hle

theorem overlapsAny_false (placed : List Circ) (px py r : Rat)
    (h : overlapsAny placed px py r = false) :
    ∀ p ∈ placed,
      sqrtLtB ((px - p.cx) * (px - p.cx) + (py - p.cy) * (py - p.cy)) (r + p.r + 6) = false := by
  intro p hp
  unfold overlapsAny at h
  have h' : ¬ ((placed.any fun p =>
      sqrtLtB ((px - p.cx) * (px - p.cx) + (py - p.cy) * (py - p.cy)) (r + p.r + 6)) = true) := by
    simp [h]
  rw [List.any_eq_true] at h'
  push_neg at h'
  simpa using h' p hp

/-- Destructing the accept-or-reject step of a candidate scan. -/
theorem ifNoneSome {α : Type} {b : Bool} {p c : α}
    (h : (if b = true then none else some p) = some c) : b = false ∧ p = c := by
  cases b
  · simp only [Bool.false_eq_true, if_false, Option.some.injEq] at h
    exact ⟨rfl, h⟩
  · simp at h

theorem firstFit_some (t : Trig) (cx cy r : Rat) (placed : List Circ) (c : Rat × Rat)
    (h : firstFit t cx cy r placed = some c) :
    overlapsAny placed c.1 c.2 r = false := by
  unfold firstFit at h
  obtain ⟨ring, _, h2⟩ := List.exists_of_findSome?_eq_some h
  obtain ⟨a, _, h3⟩ := List.exists_of_findSome?_eq_some h2
  dsimp only at h3
  rcases ifNoneSome h3 with ⟨hov, hpq⟩
  rw [← hpq]
  simpa using hov

/-- The layout output carries exactly the input bubbles, in order. -/
theorem layoutGo_map_bubble (t : Trig) (cx cy : Rat) :
    ∀ (bs : List Bubble) (placed : List Circ),
      (layoutGo t cx cy placed bs).map Placed.bubble = bs := by
  intro bs
  induction bs with
  | nil => intro placed; simp [layoutGo]
  | cons b bs ih =>
    intro placed
    by_cases hp : placed.isEmpty
    · simp [layoutGo, hp, ih]
    · simp [layoutGo, hp, ih]

theorem layoutGo_length (t : Trig) (cx cy : Rat) (bs : List Bubble) (placed : List Circ) :
    (layoutGo t cx cy placed bs).length = bs.length := by
  have := congrArg List.length (layoutGo_map_bubble t cx cy bs placed)
  simpa using this

/-- Processing a concatenation: the first part is laid out as if alone, the
second against the circles accumulated from the first. -/
theorem layoutGo_append (t : Trig) (cx cy : Rat) :
    ∀ (l1 l2 : List Bubble) (placed : List Circ),
      layoutGo t cx cy placed (l1 ++ l2) =
        layoutGo t cx cy placed l1 ++
          layoutGo t cx cy (placed ++ (layoutGo t cx cy placed l1).map circOf) l2 := by
  intro l1
  induction l1 with
  | nil => intro l2 placed; simp [layoutGo]
  | cons b l1 ih =>
    intro l2 placed
    by_cases hp : placed.isEmpty
    · simp only [List.cons_append, layoutGo, hp, List.append_eq, if_true, Bool.false_eq_true,
        if_false]
      rw [ih]
      simp [circOf, List.append_assoc]
    · simp only [List.cons_append, layoutGo, hp, List.append_eq, if_true, Bool.false_eq_true,
        if_false]
      rw [ih]
      simp [circOf, List.append_assoc]

/-- Core invariant of the ring scan: as long as the budget suffices, every
circle entering `placed` keeps the separation relation with all previous
ones, so the accumulated list stays pairwise separated. -/
theorem budgetGo_pairwise (t : Trig) (cx cy : Rat) :
    ∀ (bs : List Bubble) (placed : List Circ),
      budgetGo t cx cy placed bs = true →
      List.Pairwise ringSep placed →
      List.Pairwise ringSep (placed ++ (layoutGo t cx cy placed bs).map circOf) := by
  intro bs
  induction bs with
  | nil => intro placed _ hpw; simpa [layoutGo]
  | cons b bs ih =>
    intro placed hb hpw
    by_cases hp : placed.isEmpty
    · have hpl : placed = [] := List.isEmpty_iff.mp hp
      subst hpl
      have hb' : budgetGo t cx cy [⟨cx, cy, b.size / 2⟩] bs = true := by
        simpa [budgetGo] using hb
      have hrec := ih [⟨cx, cy, b.size / 2⟩] hb' (by simp)
      have hgo : layoutGo t cx cy [] (b :: bs) =
          ⟨b, cx - b.size / 2, cy - b.size / 2, cx, cy⟩ ::
            layoutGo t cx cy [⟨cx, cy, b.size / 2⟩] bs := by
        simp [layoutGo]
      rw [hgo]
      simpa [circOf] using hrec
    · cases hf : firstFit t cx cy (b.size / 2) placed with
      | none => simp [budgetGo, hp, hf] at hb
      | some c =>
        have hb' : budgetGo t cx cy (placed ++ [⟨c.1, c.2, b.size / 2⟩]) bs = true := by
          simpa [budgetGo, hp, hf] using hb
        have hsep : ∀ p ∈ placed, ringSep p ⟨c.1, c.2, b.size / 2⟩ := by
          intro p hpmem
          have hov := firstFit_some t cx cy (b.size / 2) placed c hf
          have := overlapsAny_false placed c.1 c.2 (b.size / 2) hov p hpmem
          simpa [ringSep] using this
        have hpw' : List.Pairwise ringSep (placed ++ [⟨c.1, c.2, b.size / 2⟩]) := by
          rw [List.pairwise_append]
          refine ⟨hpw, by simp, ?_⟩
          intro a ha q hq
          simp only [List.mem_singleton] at hq
          subst hq
          exact hsep a ha
        have hrec := ih (placed ++ [⟨c.1, c.2, b.size / 2⟩]) hb' hpw'
        have hgo : layoutGo t cx cy placed (b :: bs) =
            ⟨b, c.1 - b.size / 2, c.2 - b.size / 2, c.1, c.2⟩ ::
              layoutGo t cx cy (placed ++ [⟨c.1, c.2, b.size / 2⟩]) bs := by
          simp [layoutGo, hp, hf]
        rw [hgo]
        simpa [circOf, List.append_assoc] using hrec

/-! ### Structural lemmas for the spiral layout -/

/-- The separation relation guaranteed by a failed overlap check of the
spiral variant (gap 4, radii from the carried bubble sizes). -/
def spiralSep (p q : Placed) : Prop :=
  sqrtLtB ((q.cx - p.cx) * (q.cx - p.cx) + (q.cy - p.cy) * (q.cy - p.cy))
    (q.bubble.size / 2 + p.bubble.size / 2 + 4) = false

theorem spiralSep_clearance (A B : Placed) (h : spiralSep A B) : clearanceGE 4 A B := by
  unfold spiralSep at h
  unfold clearanceGE
  have hle := sqrtLtB_false_le _ _ h
  have hd : (B.cx - A.cx) * (B.cx - A.cx) + (B.cy - A.cy) * (B.cy - A.cy) =
      (A.cx - B.cx) * (A.cx - B.cx) + (A.cy - B.cy) * (A.cy - B.cy) := by ring
  have hm : B.bubble.size / 2 + A.bubble.size / 2 + 4 =
      A.bubble.size / 2 + B.bubble.size / 2 + 4 := by ring
  rw [hd, hm] at hle
  exact hle

theorem spiralOverlaps_false (placed : List Placed) (px py r : Rat)
    (h : spiralOverlaps placed px py r = false) :
    ∀ p ∈ placed,
      sqrtLtB ((px - p.cx) * (px - p.cx) + (py - p.cy) * (py - p.cy))
        (r + p.bubble.size / 2 + 4) = false := by
  intro p hp
  unfold spiralOverlaps at h
  have h' : ¬ ((placed.any fun p =>
      sqrtLtB ((px - p.cx) * (px - p.cx) + (py - p.cy) * (py - p.cy))
        (r + p.bubble.size / 2 + 4)) = true) := by
    simp [h]
  rw [List.any_eq_true] at h'
  push_neg at h'
  simpa using h' p hp

theorem spiralFirstFit_some (t : Trig) (i : Nat) (b : Bubble) (cx cy : Rat)
    (placed : List Placed) (c : Rat × Rat) (h : spiralFirstFit t i b cx cy placed = some c) :
    spiralOverlaps placed c.1 c.2 (b.size / 2) = false := by
  unfold spiralFirstFit at h
  obtain ⟨s, _, h2⟩ := List.exists_of_findSome?_eq_some h
  dsimp only at h2
  rcases ifNoneSome h2 with ⟨hov, hpq⟩
  rw [← hpq]
  simpa using hov

/-- Core invariant of the spiral scan, for a running index of at least 1 (the
index-0 unchecked first placement is handled at the top level). -/
theorem spiralBudgetGo_pairwise (t : Trig) (cx cy : Rat) :
    ∀ (bs : List Bubble) (i : Nat) (placed : List Placed), 1 ≤ i →
      spiralBudgetGo t cx cy i placed bs = true →
      List.Pairwise spiralSep placed →
      List.Pairwise spiralSep (spiralGo t cx cy i placed bs) := by
  intro bs
  induction bs with
  | nil => intro i placed _ _ hpw; simpa [spiralGo]
  | cons b bs ih =>
    intro i placed hi hb hpw
    have hi0 : ¬ i = 0 := by omega
    cases hf : spiralFirstFit t i b cx cy placed with
    | none => simp [spiralBudgetGo, hi0, hf] at hb
    | some c =>
      have hb' : spiralBudgetGo t cx cy (i + 1)
          (placed ++ [⟨b, c.1 - b.size / 2, c.2 - b.size / 2, c.1, c.2⟩]) bs = true := by
        simpa [spiralBudgetGo, hi0, hf] using hb
      have hsep : ∀ p ∈ placed,
          spiralSep p ⟨b, c.1 - b.size / 2, c.2 - b.size / 2, c.1, c.2⟩ := by
        intro p hpmem
        have hov := spiralFirstFit_some t i b cx cy placed c hf
        have := spiralOverlaps_false placed c.1 c.2 (b.size / 2) hov p hpmem
        simpa [spiralSep] using this
      have hpw' : List.Pairwise spiralSep
          (placed ++ [⟨b, c.1 - b.size / 2, c.2 - b.size / 2, c.1, c.2⟩]) := by
        rw [List.pairwise_append]
        refine ⟨hpw, by simp, ?_⟩
        intro a ha q hq
        simp only [List.mem_singleton] at hq
        subst hq
        exact hsep a ha
      have hrec := ih (i + 1) (placed ++ [⟨b, c.1 - b.size / 2, c.2 - b.size / 2, c.1, c.2⟩])
        (by omega) hb' hpw'
      have hgo : spiralGo t cx cy i placed (b :: bs) =
          spiralGo t cx cy (i + 1)
            (placed ++ [⟨b, c.1 - b.size / 2, c.2 - b.size / 2, c.1, c.2⟩]) bs := by
        simp [spiralGo, hi0, hf]
      rw [hgo]
      exact hrec

theorem spiralGo_length (t : Trig) (cx cy : Rat) :
    ∀ (bs : List Bubble) (i : Nat) (placed : List Placed),
      (spiralGo t cx cy i placed bs).length = placed.length + bs.length := by
  intro bs
  induction bs with
  | nil => intro i placed; simp [spiralGo]
  | cons b bs ih =>
    intro i placed
    by_cases hi : i = 0
    · simp only [spiralGo, hi, if_true]
      rw [ih]
      simp
      omega
    · cases hf : spiralFirstFit t i b cx cy placed with
      | none =>
        simp only [spiralGo, hi, if_false, hf]
        rw [ih]
        simp
        omega
      | some c =>
        simp only [spiralGo, hi, if_false, hf]
        rw [ih]
        simp
        omega

/-- The single-bubble step of `spiralGo`, abstracted over the three branches:
whatever placement the step produces, the recursion continues on the appended
accumulator with the next index. -/
theorem spiralGo_cons_exists (t : Trig) (cx cy : Rat) (i : Nat) (placed : List Placed)
    (b : Bubble) :
    ∃ q : Placed, ∀ (bs : List Bubble),
      spiralGo t cx cy i placed (b :: bs) = spiralGo t cx cy (i + 1) (placed ++ [q]) bs := by
  by_cases hi : i = 0
  · exact ⟨⟨b, cx - b.size / 2, cy - b.size / 2, cx, cy⟩, fun bs => by simp [spiralGo, hi]⟩
  · cases hf : spiralFirstFit t i b cx cy placed with
    | none =>
      refine ⟨⟨b, cx + t.cos ((i : Rat) * goldenAngle) *
          (t.sqrtQ (i : Rat) * b.size * (8 / 10)) - b.size / 2,
          cy + t.sin ((i : Rat) * goldenAngle) *
          (t.sqrtQ (i : Rat) * b.size * (8 / 10)) - b.size / 2,
          cx + t.cos ((i : Rat) * goldenAngle) * (t.sqrtQ (i : Rat) * b.size * (8 / 10)),
          cy + t.sin ((i : Rat) * goldenAngle) * (t.sqrtQ (i : Rat) * b.size * (8 / 10))⟩,
        fun bs => by simp [spiralGo, hi, hf]⟩
    | some c =>
      exact ⟨⟨b, c.1 - b.size / 2, c.2 - b.size / 2, c.1, c.2⟩,
        fun bs => by simp [spiralGo, hi, hf]⟩

theorem spiralGo_append (t : Trig) (cx cy : Rat) :
    ∀ (l1 l2 : List Bubble) (i : Nat) (placed : List Placed),
      spiralGo t cx cy i placed (l1 ++ l2) =
        spiralGo t cx cy (i + l1.length) (spiralGo t cx cy i placed l1) l2 := by
  intro l1
  induction l1 with
  | nil => intro l2 i placed; simp [spiralGo]
  | cons b l1 ih =>
    intro l2 i placed
    have harith : i + (b :: l1).length = i + 1 + l1.length := by
      simp only [List.length_cons]; omega
    obtain ⟨q, hstep⟩ := spiralGo_cons_exists t cx cy i placed b
    rw [harith, List.cons_append, hstep, hstep, ih]

/-- Already accumulated placements are never revisited: positions below the
current `placed` length are final. -/
theorem spiralGo_getElem_left (t : Trig) (cx cy : Rat) :
    ∀ (bs : List Bubble) (i : Nat) (placed : List Placed) (k : Nat),
      k < placed.length → (spiralGo t cx cy i placed bs)[k]? = placed[k]? := by
  intro bs
  induction bs with
  | nil => intro i placed k _; simp [spiralGo]
  | cons b bs ih =>
    intro i placed k hk
    have hk' : ∀ (q : Placed), k < (placed ++ [q]).length := by
      intro q; simp; omega
    have happ : ∀ (q : Placed), (placed ++ [q])[k]? = placed[k]? := by
      intro q; exact List.getElem?_append_left hk
    by_cases hi : i = 0
    · simp only [spiralGo, hi, if_true]
      rw [ih _ _ _ (hk' _), happ]
    · cases hf : spiralFirstFit t i b cx cy placed with
      | none =>
        simp only [spiralGo, hi, if_false, hf]
        rw [ih _ _ _ (hk' _), happ]
      | some c =>
        simp only [spiralGo, hi, if_false, hf]
        rw [ih _ _ _ (hk' _), happ]

theorem spiralGo_map_bubble (t : Trig) (cx cy : Rat) :
    ∀ (bs : List Bubble) (i : Nat) (placed : List Placed),
      (spiralGo t cx cy i placed bs).map Placed.bubble = placed.map Placed.bubble ++ bs := by
  intro bs
  induction bs with
  | nil => intro i placed; simp [spiralGo]
  | cons b bs ih =>
    intro i placed
    by_cases hi : i = 0
    · simp only [spiralGo, hi, if_true]
      rw [ih]
      simp
    · cases hf : spiralFirstFit t i b cx cy placed with
      | none =>
        simp only [spiralGo, hi, if_false, hf]
        rw [ih]
        simp
      | some c =>
        simp only [spiralGo, hi, if_false, hf]
        rw [ih]
        simp

/-! ### The claims about the layout engine -/

/-- C1: for every layout-engine output on circles with positive diameters,
when the bounded search budget suffices, every pair of placed circles keeps a
centre distance of at least the sum of the radii plus the clearance constant:
gap 6 for the ring-scan variant, gap 4 for the spiral variant. -/
theorem c1_no_overlap (t : Trig) (bs : List Bubble) (W H off : Rat)
    (_hpos : ∀ b ∈ bs, 0 < b.size) (_hlen : 2 ≤ bs.length)
    (hring : budgetOk t bs W H off = true)
    (hspiral : budgetOkSpiral t bs W H = true) :
    List.Pairwise (clearanceGE 6) (layoutBubbles t bs W H off) ∧
    List.Pairwise (clearanceGE 4) (layoutBubblesSpiral t bs W H) := by
  constructor
  · unfold layoutBubbles
    by_cases hb : bs.isEmpty
    · simp [hb]
    · simp only [hb, Bool.false_eq_true, if_false]
      have h := budgetGo_pairwise t (W / 2) (H / 2 + off) bs []
        (by simpa [budgetOk] using hring) (by simp)
      rw [List.nil_append, List.pairwise_map] at h
      exact h.imp fun hab => ringSep_clearance _ _ hab
  · unfold layoutBubblesSpiral
    by_cases hb : bs.isEmpty
    · simp [hb]
    · obtain ⟨b, rest, rfl⟩ : ∃ b rest, bs = b :: rest := by
        cases bs with
        | nil => simp at hb
        | cons x xs => exact ⟨x, xs, rfl⟩
      have hbud : spiralBudgetGo t (W / 2) (H / 2 - 20) 1
          [⟨b, W / 2 - b.size / 2, H / 2 - 20 - b.size / 2, W / 2, H / 2 - 20⟩] rest = true := by
        have := hspiral
        simp only [budgetOkSpiral, List.isEmpty_cons, Bool.false_eq_true, if_false] at this
        simpa [spiralBudgetGo] using this
      have h := spiralBudgetGo_pairwise t (W / 2) (H / 2 - 20) rest 1
        [⟨b, W / 2 - b.size / 2, H / 2 - 20 - b.size / 2, W / 2, H / 2 - 20⟩]
        (le_refl 1) hbud (by simp)
      have hgo : spiralGo t (W / 2) (H / 2 - 20) 0 [] (b :: rest) =
          spiralGo t (W / 2) (H / 2 - 20) 1
            [⟨b, W / 2 - b.size / 2, H / 2 - 20 - b.size / 2, W / 2, H / 2 - 20⟩] rest := by
        simp [spiralGo]
      simp only [hb, Bool.false_eq_true, if_false, hgo]
      exact h.imp fun hab => spiralSep_clearance _ _ hab

/-- C2: the layout engines are total: every input circle receives a placement
(the output has the length of the input for all inputs), and when the bounded
search fails for a circle, that circle is still placed, at the overlap
permitted fallback position of its variant. -/
theorem c2_never_fails :
    (∀ (t : Trig) (bs : List Bubble) (W H off : Rat),
        (layoutBubbles t bs W H off).length = bs.length) ∧
    (∀ (t : Trig) (bs : List Bubble) (W H : Rat),
        (layoutBubblesSpiral t bs W H).length = bs.length) ∧
    (∀ (t : Trig) (W H off : Rat) (pre post : List Bubble) (b : Bubble), pre ≠ [] →
        firstFit t (W / 2) (H / 2 + off) (b.size / 2)
            ((layoutBubbles t pre W H off).map circOf) = none →
        (layoutBubbles t (pre ++ b :: post) W H off)[pre.length]? =
          some ⟨b, W / 2 + (pre.length : Rat) * 10 - b.size / 2,
                H / 2 + off + (pre.length : Rat) * 10 - b.size / 2,
                W / 2 + (pre.length : Rat) * 10, H / 2 + off + (pre.length : Rat) * 10⟩) ∧
    (∀ (t : Trig) (W H : Rat) (pre post : List Bubble) (b : Bubble), pre ≠ [] →
        spiralFirstFit t pre.length b (W / 2) (H / 2 - 20)
            (layoutBubblesSpiral t pre W H) = none →
        (layoutBubblesSpiral t (pre ++ b :: post) W H)[pre.length]? =
          some ⟨b,
                W / 2 + t.cos ((pre.length : Rat) * goldenAngle) *
                    (t.sqrtQ (pre.length : Rat) * b.size * (8 / 10)) - b.size / 2,
                H / 2 - 20 + t.sin ((pre.length : Rat) * goldenAngle) *
                    (t.sqrtQ (pre.length : Rat) * b.size * (8 / 10)) - b.size / 2,
                W / 2 + t.cos ((pre.length : Rat) * goldenAngle) *
                    (t.sqrtQ (pre.length : Rat) * b.size * (8 / 10)),
                H / 2 - 20 + t.sin ((pre.length : Rat) * goldenAngle) *
                    (t.sqrtQ (pre.length : Rat) * b.size * (8 / 10))⟩) := by
  refine ⟨?_, ?_, ?_, ?_⟩
  · intro t bs W H off
    unfold layoutBubbles
    by_cases hb : bs.isEmpty
    · rw [List.isEmpty_iff.mp hb]; simp
    · simp only [hb, Bool.false_eq_true, if_false]
      exact layoutGo_length t (W / 2) (H / 2 + off) bs []
  · intro t bs W H
    unfold layoutBubblesSpiral
    by_cases hb : bs.isEmpty
    · rw [List.isEmpty_iff.mp hb]; simp
    · simp only [hb, Bool.false_eq_true, if_false]
      simpa using spiralGo_length t (W / 2) (H / 2 - 20) bs 0 []
  · intro t W H off pre post b hpre hff
    have hpre' : pre.isEmpty = false := by
      cases pre with
      | nil => simp at hpre
      | cons x xs => simp
    have hall : (pre ++ b :: post).isEmpty = false := by
      cases pre <;> simp
    have hLpre : layoutBubbles t pre W H off = layoutGo t (W / 2) (H / 2 + off) [] pre := by
      simp [layoutBubbles, hpre']
    rw [hLpre] at hff
    have hsplit : layoutBubbles t (pre ++ b :: post) W H off =
        layoutGo t (W / 2) (H / 2 + off) [] pre ++
          layoutGo t (W / 2) (H / 2 + off)
            ((layoutGo t (W / 2) (H / 2 + off) [] pre).map circOf) (b :: post) := by
      simp only [layoutBubbles, hall, Bool.false_eq_true, if_false]
      rw [layoutGo_append]
      simp
    rw [hsplit]
    have hlen : (layoutGo t (W / 2) (H / 2 + off) [] pre).length = pre.length :=
      layoutGo_length t (W / 2) (H / 2 + off) pre []
    rw [List.getElem?_append_right (by omega)]
    have hPlen : ((layoutGo t (W / 2) (H / 2 + off) [] pre).map circOf).length = pre.length := by
      simp [hlen]
    have hPne : ((layoutGo t (W / 2) (H / 2 + off) [] pre).map circOf).isEmpty = false := by
      rw [List.isEmpty_eq_false_iff_exists_mem]
      have : 0 < pre.length := by
        cases pre with
        | nil => simp at hpre
        | cons x xs => simp
      rcases List.exists_mem_of_length_pos (by omega : 0 < ((layoutGo t (W / 2)
        (H / 2 + off) [] pre).map circOf).length) with ⟨a, ha⟩
      exact ⟨a, ha⟩
    have hstep : layoutGo t (W / 2) (H / 2 + off)
        ((layoutGo t (W / 2) (H / 2 + off) [] pre).map circOf) (b :: post) =
        ⟨b, W / 2 + (pre.length : Rat) * 10 - b.size / 2,
          H / 2 + off + (pre.length : Rat) * 10 - b.size / 2,
          W / 2 + (pre.length : Rat) * 10, H / 2 + off + (pre.length : Rat) * 10⟩ ::
          layoutGo t (W / 2) (H / 2 + off)
            ((layoutGo t (W / 2) (H / 2 + off) [] pre).map circOf ++
              [⟨W / 2 + (pre.length : Rat) * 10, H / 2 + off + (pre.length : Rat) * 10,
                b.size / 2⟩]) post := by
      simp only [layoutGo, hPne, Bool.false_eq_true, if_false, hff]
      rw [hPlen]
    rw [hstep]
    simp [hlen]
  · intro t W H pre post b hpre hff
    have hpre' : pre.isEmpty = false := by
      cases pre with
      | nil => simp at hpre
      | cons x xs => simp
    have hall : (pre ++ b :: post).isEmpty = false := by
      cases pre <;> simp
    have hipos : ¬ pre.length = 0 := by
      cases pre with
      | nil => simp at hpre
      | cons x xs => simp
    have hLpre : layoutBubblesSpiral t pre W H = spiralGo t (W / 2) (H / 2 - 20) 0 [] pre := by
      simp [layoutBubblesSpiral, hpre']
    rw [hLpre] at hff
    have hlenP : (spiralGo t (W / 2) (H / 2 - 20) 0 [] pre).length = pre.length := by
      simpa using spiralGo_length t (W / 2) (H / 2 - 20) pre 0 []
    have hsplit : layoutBubblesSpiral t (pre ++ b :: post) W H =
        spiralGo t (W / 2) (H / 2 - 20) pre.length
          (spiralGo t (W / 2) (H / 2 - 20) 0 [] pre) (b :: post) := by
      simp only [layoutBubblesSpiral, hall, Bool.false_eq_true, if_false]
      rw [spiralGo_append]
      simp
    rw [hsplit]
    have hstep : spiralGo t (W / 2) (H / 2 - 20) pre.length
        (spiralGo t (W / 2) (H / 2 - 20) 0 [] pre) (b :: post) =
        spiralGo t (W / 2) (H / 2 - 20) (pre.length + 1)
          (spiralGo t (W / 2) (H / 2 - 20) 0 [] pre ++
            [⟨b,
              W / 2 + t.cos ((pre.length : Rat) * goldenAngle) *
                  (t.sqrtQ (pre.length : Rat) * b.size * (8 / 10)) - b.size / 2,
              H / 2 - 20 + t.sin ((pre.length : Rat) * goldenAngle) *
                  (t.sqrtQ (pre.length : Rat) * b.size * (8 / 10)) - b.size / 2,
              W / 2 + t.cos ((pre.length : Rat) * goldenAngle) *
                  (t.sqrtQ (pre.length : Rat) * b.size * (8 / 10)),
              H / 2 - 20 + t.sin ((pre.length : Rat) * goldenAngle) *
                  (t.sqrtQ (pre.length : Rat) * b.size * (8 / 10))⟩]) post := by
      simp only [spiralGo, hipos, if_false, hff]
    rw [hstep]
    rw [spiralGo_getElem_left t (W / 2) (H / 2 - 20) post (pre.length + 1) _ pre.length
      (by simp [hlenP])]
    rw [List.getElem?_append_right (by omega)]
    simp [hlenP]

/-- C3: the ring-scan layout output has the length of the input and, at every
index, carries exactly the input bubble of that index (its id and all other
non-position fields). -/
theorem c3_order_preserved (t : Trig) (bs : List Bubble) (W H off : Rat) :
    (layoutBubbles t bs W H off).length = bs.length ∧
    ∀ i : Nat, ((layoutBubbles t bs W H off)[i]?).map Placed.bubble = bs[i]? := by
  have hmap : (layoutBubbles t bs W H off).map Placed.bubble = bs := by
    unfold layoutBubbles
    by_cases hb : bs.isEmpty
    · rw [List.isEmpty_iff.mp hb]; simp
    · simp only [hb, Bool.false_eq_true, if_false]
      exact layoutGo_map_bubble t (W / 2) (H / 2 + off) bs []
  constructor
  · have := congrArg List.length hmap
    simpa using this
  · intro i
    conv_rhs => rw [← hmap]
    rw [List.getElem?_map]

/-- C4: the ring-scan layout engine is deterministic: identical ordered
inputs, canvas dimensions and centre offset give identical outputs. -/
theorem c4_deterministic (t : Trig) (bs1 bs2 : List Bubble) (W1 W2 H1 H2 off1 off2 : Rat)
    (hb : bs1 = bs2) (hW : W1 = W2) (hH : H1 = H2) (hoff : off1 = off2) :
    layoutBubbles t bs1 W1 H1 off1 = layoutBubbles t bs2 W2 H2 off2 := by
  subst hb; subst hW; subst hH; subst hoff; rfl

/-- C5: placements are stable under appending: laying out `bs ++ [b]` gives,
at every index of `bs`, exactly the placement produced for `bs` alone — each
circle's placement depends only on the circles before it. -/
theorem c5_stable_append (t : Trig) (bs : List Bubble) (b : Bubble) (W H off : Rat)
    (i : Nat) (hi : i < bs.length) :
    (layoutBubbles t (bs ++ [b]) W H off)[i]? = (layoutBubbles t bs W H off)[i]? := by
  have hne : bs.isEmpty = false := by
    cases bs with
    | nil => simp at hi
    | cons x xs => simp
  have hall : (bs ++ [b]).isEmpty = false := by
    cases bs <;> simp
  simp only [layoutBubbles, hne, hall, Bool.false_eq_true, if_false]
  rw [layoutGo_append]
  exact List.getElem?_append_left (by rw [layoutGo_length]; omega)

/-- C6: the first circle is placed with its centre at the horizontal canvas
centre and at the vertical centre shifted by the main-field bias
`Math.round(-0.10 * containerH)`, which is negative (upward) for any
container taller than 5px; `x`/`y` are the top-left of the bounding box. -/
theorem c6_first_circle (t : Trig) (b : Bubble) (bs : List Bubble) (W H : Rat)
    (hH : 5 < H) :
    (layoutBubbles t (b :: bs) W H (mainFieldCyOffset H)).head? =
      some ⟨b, W / 2 - b.size / 2, H / 2 + mainFieldCyOffset H - b.size / 2,
            W / 2, H / 2 + mainFieldCyOffset H⟩ ∧
    mainFieldCyOffset H < 0 := by
  constructor
  · simp [layoutBubbles, layoutGo]
  · unfold mainFieldCyOffset jsRound
    have hfloor : ⌊-(10 / 100 : Rat) * H + 1 / 2⌋ < (0 : Int) := by
      rw [Int.floor_lt]
      push_cast
      linarith
    exact_mod_cast hfloor

/-! ### Concrete fixtures for the witnesses

`tW` is a concrete abstract-trig model (constant cosine 1, sine 0, zero pi,
sqrt 100) under which the searches succeed quickly; `tF` (sqrt 0) makes every
spiral candidate coincide with the cluster centre so the 300-step budget is
exhausted. -/

def tW : Trig := ⟨0, fun _ => 1, fun _ => 0, fun _ => 100⟩

def tF : Trig := ⟨0, fun _ => 1, fun _ => 0, fun _ => 0⟩

def wbA : Bubble := ⟨"a", 0, 0, 2, "g"⟩

def wbB : Bubble := ⟨"b", 0, 1, 2, "g"⟩

def wbBig : Bubble := ⟨"c", 0, 1, 1600, "g"⟩

def wbS1 : Bubble := ⟨"s1", 0, 0, 4000, "g"⟩

def wbS2 : Bubble := ⟨"s2", 0, 1, 4000, "g"⟩

def wb100 : Bubble := ⟨"w", 0, 0, 100, "g"⟩

set_option maxRecDepth 400000 in
/-- Witness for C1 at a concrete two-bubble input whose budgets suffice. -/
theorem c1_no_overlap_witness :
    List.Pairwise (clearanceGE 6) (layoutBubbles tW [wbA, wbB] 100 100 0) ∧
    List.Pairwise (clearanceGE 4) (layoutBubblesSpiral tW [wbA, wbB] 100 100) :=
  c1_no_overlap tW [wbA, wbB] 100 100 0
    (by with_unfolding_all decide) (by with_unfolding_all decide)
    (by with_unfolding_all decide) (by with_unfolding_all decide)

set_option maxRecDepth 400000 in
/-- Witness for C2: a bubble too large for the ring budget is placed at the
ring fallback, and a dense spiral input exhausting all 300 steps is placed at
the spiral fallback. -/
theorem c2_never_fails_witness :
    (layoutBubbles tW [wbA, wbBig] 100 100 0)[1]? = some ⟨wbBig, -740, -740, 60, 60⟩ ∧
    (layoutBubblesSpiral tF [wbS1, wbS2] 0 0)[1]? = some ⟨wbS2, -2000, -2020, 0, -20⟩ := by
  constructor
  · have h := c2_never_fails.2.2.1 tW 100 100 0 [wbA] [] wbBig (by simp)
      (by with_unfolding_all decide)
    with_unfolding_all exact h
  · have h := c2_never_fails.2.2.2 tF 0 0 [wbS1] [] wbS2 (by simp)
      (by with_unfolding_all decide)
    with_unfolding_all exact h

/-- Witness for C4 at concrete identical invocations. -/
theorem c4_deterministic_witness :
    layoutBubbles tW [wbA] 9 9 1 = layoutBubbles tW [wbA] 9 9 1 :=
  c4_deterministic tW [wbA] [wbA] 9 9 9 9 1 1 rfl rfl rfl rfl

set_option maxRecDepth 400000 in
/-- Witness for C5: appending a bubble leaves the first placement unchanged. -/
theorem c5_stable_append_witness :
    (layoutBubbles tW [wbA, wbB] 100 100 0)[0]? = (layoutBubbles tW [wbA] 100 100 0)[0]? := by
  have h := c5_stable_append tW [wbA] wbB 100 100 0 0 (by simp)
  with_unfolding_all exact h

/-- Witness for C6: one circle of diameter 100 in a 900 by 680 canvas. -/
theorem c6_first_circle_witness :
    (layoutBubbles tW (wb100 :: []) 900 680 (mainFieldCyOffset 680)).head? =
      some ⟨wb100, 900 / 2 - wb100.size / 2, 680 / 2 + mainFieldCyOffset 680 - wb100.size / 2,
            900 / 2, 680 / 2 + mainFieldCyOffset 680⟩ ∧
    mainFieldCyOffset 680 < 0 :=
  c6_first_circle tW wb100 [] 900 680 (by norm_num)

/-! ### Structural lemmas for the incremental renderer -/

theorem setAdd_mem (k : List String) (x s : String) :
    s ∈ setAdd k x ↔ s ∈ k ∨ s = x := by
  by_cases hx : x ∈ k
  · simp only [setAdd, hx, if_true]
    constructor
    · exact fun h => Or.inl h
    · rintro (h | rfl)
      · exact h
      · exact hx
  · simp [setAdd, hx]

theorem setDelete_mem (k : List String) (x s : String) :
    s ∈ setDelete k x ↔ s ∈ k ∧ s ≠ x := by
  unfold setDelete
  rw [List.mem_filter]
  simp only [decide_eq_true_eq]

theorem anyId_iff (as : List Anchor) (s : String) :
    (as.any fun a => a.dataId == s) = true ↔ s ∈ as.map Anchor.dataId := by
  rw [List.any_eq_true]
  constructor
  · rintro ⟨a, ha, he⟩
    exact List.mem_map.mpr ⟨a, ha, by simpa using he⟩
  · intro hmem
    rcases List.mem_map.mp hmem with ⟨a, ha, he⟩
    exact ⟨a, ha, by simp [he]⟩

/-- The removal loop keeps exactly the anchors whose id is in the current id
set, in order. -/
theorem removePass_fst (currentIds : List String) :
    ∀ (as : List Anchor) (k : List String),
      (removePass currentIds as k).1 = as.filter fun a => currentIds.contains a.dataId := by
  intro as
  induction as with
  | nil => intro k; simp [removePass]
  | cons a as ih =>
    intro k
    by_cases ha : currentIds.contains a.dataId
    · have ha' : a.dataId ∈ currentIds := by simpa using ha
      simp [removePass, ha, ha', List.filter_cons, ih]
    · have ha' : ¬ a.dataId ∈ currentIds := by simpa using ha
      simp only [removePass, ha, Bool.false_eq_true, if_false, List.filter_cons]
      simp [ih, ha']

/-- Membership in the known-set after the removal loop: survivors are the
previously known ids that no removed anchor carried. -/
theorem removePass_snd_mem (currentIds : List String) :
    ∀ (as : List Anchor) (k : List String) (s : String),
      s ∈ (removePass currentIds as k).2 ↔
        s ∈ k ∧ ∀ a ∈ as, a.dataId = s → currentIds.contains s = true := by
  intro as
  induction as with
  | nil => intro k s; simp [removePass]
  | cons a as ih =>
    intro k s
    by_cases ha : currentIds.contains a.dataId
    · simp only [removePass, ha, if_true]
      rw [ih]
      constructor
      · rintro ⟨hk, hrest⟩
        refine ⟨hk, ?_⟩
        intro a' ha'
        rcases List.mem_cons.mp ha' with rfl | hmem
        · intro he; rw [← he]; exact ha
        · exact hrest a' hmem
      · rintro ⟨hk, hall⟩
        exact ⟨hk, fun a' hmem => hall a' (List.mem_cons_of_mem _ hmem)⟩
    · simp only [removePass, ha, Bool.false_eq_true, if_false]
      rw [ih]
      rw [setDelete_mem]
      constructor
      · rintro ⟨⟨hk, hne⟩, hrest⟩
        refine ⟨hk, ?_⟩
        intro a' ha'
        rcases List.mem_cons.mp ha' with rfl | hmem
        · intro he; exact absurd he.symm hne
        · exact hrest a' hmem
      · rintro ⟨hk, hall⟩
        have hne : s ≠ a.dataId := by
          intro he
          subst he
          exact ha (hall a (List.mem_cons_self a as) rfl)
        exact ⟨⟨hk, hne⟩, fun a' hmem => hall a' (List.mem_cons_of_mem _ hmem)⟩

/-- When every present anchor id is in the current id set, the removal loop
is the identity. -/
theorem removePass_id (currentIds : List String) :
    ∀ (as : List Anchor) (k : List String),
      (∀ a ∈ as, currentIds.contains a.dataId = true) →
      removePass currentIds as k = (as, k) := by
  intro as
  induction as with
  | nil => intro k _; simp [removePass]
  | cons a as ih =>
    intro k hall
    have ha := hall a (List.mem_cons_self a as)
    simp only [removePass, ha, if_true]
    rw [ih k fun a' h => hall a' (List.mem_cons_of_mem _ h)]

theorem updateFirst_ids (id : String) (p : Placed) :
    ∀ as : List Anchor, (updateFirst id p as).map Anchor.dataId = as.map Anchor.dataId := by
  intro as
  induction as with
  | nil => simp [updateFirst]
  | cons a as ih =>
    by_cases ha : a.dataId == id
    · simp [updateFirst, ha, updateAnchor]
    · simp [updateFirst, ha, ih]

/-- The reconciliation fold only appends anchors, and only for ids of the
laid-out list: the id column grows by ids drawn from the layout. -/
theorem foldl_upsert_ids :
    ∀ (laid : List Placed) (acc : List Anchor × List String),
      ∃ extra : List String,
        (laid.foldl upsert acc).1.map Anchor.dataId = acc.1.map Anchor.dataId ++ extra ∧
        ∀ x ∈ extra, x ∈ laid.map fun p => p.bubble.id := by
  intro laid
  induction laid with
  | nil => intro acc; exact ⟨[], by simp⟩
  | cons p laid ih =>
    intro acc
    rw [List.foldl_cons]
    obtain ⟨extra, hext, hsub⟩ := ih (upsert acc p)
    by_cases hany : (acc.1.any fun a => a.dataId == p.bubble.id) = true
    · refine ⟨extra, ?_, ?_⟩
      · rw [hext]
        simp only [upsert, hany, if_true]
        rw [updateFirst_ids]
      · intro x hx
        exact List.mem_cons_of_mem _ (hsub x hx)
    · refine ⟨p.bubble.id :: extra, ?_, ?_⟩
      · rw [hext]
        simp only [upsert, Bool.not_eq_true] at hany ⊢
        simp [hany, newAnchor, List.append_assoc]
      · intro x hx
        rcases List.mem_cons.mp hx with rfl | hmem
        · simp
        · exact List.mem_cons_of_mem _ (hsub x hmem)

/-- After the fold, every laid-out id has an anchor. -/
theorem foldl_upsert_covers :
    ∀ (laid : List Placed) (acc : List Anchor × List String),
      ∀ p ∈ laid, p.bubble.id ∈ (laid.foldl upsert acc).1.map Anchor.dataId := by
  intro laid
  induction laid with
  | nil => intro acc p hp; simp at hp
  | cons q laid ih =>
    intro acc p hp
    rw [List.foldl_cons]
    rcases List.mem_cons.mp hp with rfl | hmem
    · obtain ⟨extra, hext, _⟩ := foldl_upsert_ids laid (upsert acc p)
      rw [hext]
      have : p.bubble.id ∈ (upsert acc p).1.map Anchor.dataId := by
        by_cases hany : (acc.1.any fun a => a.dataId == p.bubble.id) = true
        · simp only [upsert, hany, if_true]
          rw [updateFirst_ids]
          exact (anyId_iff _ _).mp hany
        · simp only [upsert, Bool.not_eq_true] at hany ⊢
          simp [hany, newAnchor]
      exact List.mem_append.mpr (Or.inl this)
    · exact ih (upsert acc q) p hmem

/-- The fold never forgets a known id. -/
theorem foldl_upsert_known_mono :
    ∀ (laid : List Placed) (acc : List Anchor × List String) (s : String),
      s ∈ acc.2 → s ∈ (laid.foldl upsert acc).2 := by
  intro laid
  induction laid with
  | nil => intro acc s hs; simpa using hs
  | cons p laid ih =>
    intro acc s hs
    rw [List.foldl_cons]
    refine ih (upsert acc p) s ?_
    by_cases hany : (acc.1.any fun a => a.dataId == p.bubble.id) = true
    · simpa [upsert, hany] using hs
    · simp only [upsert, Bool.not_eq_true] at hany ⊢
      simp only [hany, Bool.false_eq_true, if_false]
      rw [setAdd_mem]
      exact Or.inl hs

/-- Every id known after the fold was known before or belongs to the layout. -/
theorem foldl_upsert_known_bound :
    ∀ (laid : List Placed) (acc : List Anchor × List String) (s : String),
      s ∈ (laid.foldl upsert acc).2 →
      s ∈ acc.2 ∨ s ∈ laid.map fun p => p.bubble.id := by
  intro laid
  induction laid with
  | nil => intro acc s hs; exact Or.inl (by simpa using hs)
  | cons p laid ih =>
    intro acc s hs
    rw [List.foldl_cons] at hs
    rcases ih (upsert acc p) s hs with h | h
    · by_cases hany : (acc.1.any fun a => a.dataId == p.bubble.id) = true
      · simp only [upsert, hany, if_true] at h
        exact Or.inl h
      · simp only [upsert, Bool.not_eq_true] at hany
        simp only [upsert, hany, Bool.false_eq_true, if_false] at h
        rcases (setAdd_mem _ _ _).mp h with h' | rfl
        · exact Or.inl h'
        · exact Or.inr (by simp)
    · exact Or.inr (List.mem_cons_of_mem _ h)

/-- When every laid-out id already has an anchor, the whole fold is pure
update-in-place: the id column and the known-set are unchanged. -/
theorem foldl_upsert_updates :
    ∀ (laid : List Placed) (acc : List Anchor × List String),
      (∀ p ∈ laid, p.bubble.id ∈ acc.1.map Anchor.dataId) →
      (laid.foldl upsert acc).1.map Anchor.dataId = acc.1.map Anchor.dataId ∧
      (laid.foldl upsert acc).2 = acc.2 := by
  intro laid
  induction laid with
  | nil => intro acc _; simp
  | cons p laid ih =>
    intro acc hcov
    rw [List.foldl_cons]
    have hany : (acc.1.any fun a => a.dataId == p.bubble.id) = true :=
      (anyId_iff _ _).mpr (hcov p (List.mem_cons_self p laid))
    have hups1 : (upsert acc p).1.map Anchor.dataId = acc.1.map Anchor.dataId := by
      simp only [upsert, hany, if_true]
      exact updateFirst_ids _ _ _
    have hups2 : (upsert acc p).2 = acc.2 := by
      simp [upsert, hany]
    have hrec := ih (upsert acc p) (by
      intro q hq
      rw [hups1]
      exact hcov q (List.mem_cons_of_mem _ hq))
    rw [hrec.1, hrec.2, hups1, hups2]
    exact ⟨rfl, rfl⟩

/-- Under the known-ids-have-anchors invariant, every laid-out id ends up in
the known-set. -/
theorem foldl_upsert_known_covers :
    ∀ (laid : List Placed) (acc : List Anchor × List String),
      (∀ s, s ∈ acc.1.map Anchor.dataId → s ∈ acc.2) →
      ∀ p ∈ laid, p.bubble.id ∈ (laid.foldl upsert acc).2 := by
  intro laid
  induction laid with
  | nil => intro acc _ p hp; simp at hp
  | cons q laid ih =>
    intro acc hinv p hp
    rw [List.foldl_cons]
    have hinv' : ∀ s, s ∈ (upsert acc q).1.map Anchor.dataId → s ∈ (upsert acc q).2 := by
      intro s hs
      by_cases hany : (acc.1.any fun a => a.dataId == q.bubble.id) = true
      · simp only [upsert, hany, if_true] at hs ⊢
        rw [updateFirst_ids] at hs
        exact hinv s hs
      · simp only [upsert, Bool.not_eq_true] at hany
        simp only [upsert, hany, Bool.false_eq_true, if_false] at hs ⊢
        rw [setAdd_mem]
        simp only [List.map_append, List.map_cons, List.map_nil, newAnchor] at hs
        rcases List.mem_append.mp hs with h | h
        · exact Or.inl (hinv s h)
        · simp at h
          exact Or.inr h
    rcases List.mem_cons.mp hp with rfl | hmem
    · refine foldl_upsert_known_mono laid (upsert acc p) _ ?_
      by_cases hany : (acc.1.any fun a => a.dataId == p.bubble.id) = true
      · simp only [upsert, hany, if_true]
        exact hinv _ ((anyId_iff _ _).mp hany)
      · simp only [upsert, Bool.not_eq_true] at hany
        simp only [upsert, hany, Bool.false_eq_true, if_false]
        rw [setAdd_mem]
        exact Or.inr rfl
    · exact ih (upsert acc q) hinv' p hmem

theorem layoutBubbles_map_bubble (t : Trig) (bs : List Bubble) (W H off : Rat) :
    (layoutBubbles t bs W H off).map Placed.bubble = bs := by
  unfold layoutBubbles
  by_cases hb : bs.isEmpty
  · rw [List.isEmpty_iff.mp hb]; simp
  · simp only [hb, Bool.false_eq_true, if_false]
    exact layoutGo_map_bubble t (W / 2) (H / 2 + off) bs []

theorem enumFrom_scaled_ids (scale : Rat) :
    ∀ (l : List Bubble) (n : Nat),
      ((List.enumFrom n l).map fun ib => { ib.2 with size := sizeForIndex ib.1 scale }).map
        (fun b => b.id) = l.map fun b => b.id := by
  intro l
  induction l with
  | nil => intro n; simp
  | cons b l ih => intro n; simp [List.enumFrom, ih]

/-- Scaling rewrites only the sizes: the id column is untouched. -/
theorem scaledOf_ids (data : List Bubble) (scale : Rat) :
    (scaledOf data scale).map (fun b => b.id) = data.map fun b => b.id := by
  unfold scaledOf List.enum
  exact enumFrom_scaled_ids scale data 0

/-- The ids of a render pass layout are exactly the input ids, in order. -/
theorem laidOf_ids (t : Trig) (data : List Bubble) (cid : String) (el : Container) :
    (laidOf t data cid el).map (fun p => p.bubble.id) = data.map fun b => b.id := by
  unfold laidOf
  rw [show (fun p : Placed => p.bubble.id) = (fun b : Bubble => b.id) ∘ Placed.bubble from rfl,
    ← List.map_map, layoutBubbles_map_bubble, scaledOf_ids]

/-- The unfolded form of a render pass on an existing container. -/
theorem renderBubbles_some (t : Trig) (data : List Bubble) (cid : String) (st : RenderState)
    (el : Container) (hel : st.container = some el) :
    renderBubbles t data cid st =
      { container := some { el with anchors :=
          ((laidOf t data cid el).foldl upsert
            (removePass (data.map fun b => b.id) el.anchors st.known)).1 }
        known := ((laidOf t data cid el).foldl upsert
            (removePass (data.map fun b => b.id) el.anchors st.known)).2
        lastData := some data } := by
  unfold renderBubbles
  rw [hel]

/-! ### The claims about the incremental renderer -/

/-- C7: repeated identical render is idempotent: the second pass on the same
snapshot creates no anchor and removes none (the id column of the container
is unchanged) and leaves the known-set unchanged. -/
theorem c7_idempotent (t : Trig) (data : List Bubble) (cid : String) (st : RenderState)
    (el : Container) (hel : st.container = some el) :
    ∃ el1 el2,
      (renderBubbles t data cid st).container = some el1 ∧
      (renderBubbles t data cid (renderBubbles t data cid st)).container = some el2 ∧
      el2.anchors.map Anchor.dataId = el1.anchors.map Anchor.dataId ∧
      (renderBubbles t data cid (renderBubbles t data cid st)).known =
        (renderBubbles t data cid st).known := by
  have h1 := renderBubbles_some t data cid st el hel
  set K := data.map fun b => b.id with hK
  set R := removePass K el.anchors st.known with hR
  set F := (laidOf t data cid el).foldl upsert R with hF
  have hlaid : laidOf t data cid { el with anchors := F.1 } = laidOf t data cid el := rfl
  have h2 : renderBubbles t data cid (renderBubbles t data cid st) =
      { container := some { el with anchors :=
          ((laidOf t data cid el).foldl upsert (removePass K F.1 F.2)).1 }
        known := ((laidOf t data cid el).foldl upsert (removePass K F.1 F.2)).2
        lastData := some data } := by
    rw [h1]
    have := renderBubbles_some t data cid
      { container := some { el with anchors := F.1 }, known := F.2, lastData := some data }
      { el with anchors := F.1 } rfl
    rw [this, hlaid]
  have hidsK : ∀ s, s ∈ F.1.map Anchor.dataId → s ∈ K := by
    intro s hs
    obtain ⟨extra, hext, hsub⟩ := foldl_upsert_ids (laidOf t data cid el) R
    rw [hF, hext] at hs
    rcases List.mem_append.mp hs with h | h
    · rw [hR, removePass_fst] at h
      rcases List.mem_map.mp h with ⟨a, ha, rfl⟩
      have := (List.mem_filter.mp ha).2
      simpa using this
    · have := hsub s h
      rw [laidOf_ids] at this
      exact this
  have hcontains : ∀ a ∈ F.1, K.contains a.dataId = true := by
    intro a ha
    have hmem := hidsK _ (List.mem_map.mpr ⟨a, ha, rfl⟩)
    simpa using hmem
  have hcov : ∀ p ∈ laidOf t data cid el, p.bubble.id ∈ F.1.map Anchor.dataId := by
    intro p hp
    rw [hF]
    exact foldl_upsert_covers _ R p hp
  have hrem2 : removePass K F.1 F.2 = (F.1, F.2) := removePass_id K F.1 F.2 hcontains
  have hupd := foldl_upsert_updates (laidOf t data cid el) (F.1, F.2) hcov
  refine ⟨{ el with anchors := F.1 },
    { el with anchors := ((laidOf t data cid el).foldl upsert (removePass K F.1 F.2)).1 },
    by rw [h1], by rw [h2], ?_, ?_⟩
  · rw [hrem2]
    exact hupd.1
  · rw [h2, h1, hrem2]
    exact hupd.2

/-- C8: if exactly one anchor carries an id absent from the snapshot, the
render pass removes exactly that anchor, deletes its id from the known-set,
and keeps every anchor whose id is still in the snapshot. -/
theorem c8_removal (t : Trig) (data : List Bubble) (cid : String) (st : RenderState)
    (el : Container) (x : String) (hel : st.container = some el)
    (hcount : (el.anchors.countP fun a => a.dataId == x) = 1)
    (hx : ¬ x ∈ data.map fun b => b.id) :
    ∃ el2,
      (renderBubbles t data cid st).container = some el2 ∧
      (el2.anchors.countP fun a => a.dataId == x) = 0 ∧
      ¬ x ∈ (renderBubbles t data cid st).known ∧
      ∀ a ∈ el.anchors, (a.dataId ∈ data.map fun b => b.id) →
        a.dataId ∈ el2.anchors.map Anchor.dataId := by
  have h1 := renderBubbles_some t data cid st el hel
  set K := data.map fun b => b.id with hK
  set R := removePass K el.anchors st.known with hR
  set F := (laidOf t data cid el).foldl upsert R with hF
  have hKx : K.contains x = false := by simp [hx]
  obtain ⟨extra, hext, hsub⟩ := foldl_upsert_ids (laidOf t data cid el) R
  rw [← hF] at hext
  have hR1count : (R.1.countP fun a => a.dataId == x) = 0 := by
    rw [hR, removePass_fst, List.countP_filter, List.countP_eq_zero]
    intro a _
    intro hcontra
    rcases Bool.and_eq_true_iff.mp hcontra with ⟨hbeq, hcont⟩
    have : a.dataId = x := by simpa using hbeq
    rw [this] at hcont
    rw [hKx] at hcont
    exact Bool.false_ne_true hcont
  refine ⟨{ el with anchors := F.1 }, by rw [h1], ?_, ?_, ?_⟩
  · have hcnt : (F.1.countP fun a => a.dataId == x) = (F.1.map Anchor.dataId).count x := by
      simp [List.count, List.countP_map]
      rfl
    rw [hcnt, hext, List.count_append]
    have hc1 : (R.1.map Anchor.dataId).count x = 0 := by
      have : (R.1.countP fun a => a.dataId == x) = (R.1.map Anchor.dataId).count x := by
        simp [List.count, List.countP_map]
        rfl
      rw [← this, hR1count]
    have hc2 : extra.count x = 0 := by
      rw [List.count_eq_zero]
      intro hmem
      have := hsub x hmem
      rw [laidOf_ids] at this
      exact hx this
    rw [hc1, hc2]
  · rw [h1]
    intro hmem
    simp only at hmem
    rcases foldl_upsert_known_bound (laidOf t data cid el) R x hmem with h | h
    · rw [hR, removePass_snd_mem] at h
      obtain ⟨a0, ha0, hx0⟩ : ∃ a ∈ el.anchors, (fun a => a.dataId == x) a := by
        rw [← List.countP_pos_iff]
        omega
      have : a0.dataId = x := by simpa using hx0
      have := h.2 a0 ha0 this
      rw [hKx] at this
      exact Bool.false_ne_true this
    · rw [laidOf_ids] at h
      exact hx h
  · intro a ha hmem
    have hcont : K.contains a.dataId = true := by simpa using hmem
    have haR : a ∈ R.1 := by
      rw [hR, removePass_fst]
      exact List.mem_filter.mpr ⟨ha, hcont⟩
    have : a.dataId ∈ R.1.map Anchor.dataId := List.mem_map.mpr ⟨a, haR, rfl⟩
    rw [hext]
    exact List.mem_append.mpr (Or.inl this)

/-- C9: when the target container does not exist, a render pass is a silent
no-op: the state (known-id set and cached last data included) is returned
unchanged. -/
theorem c9_missing_container (t : Trig) (data : List Bubble) (cid : String)
    (st : RenderState) (h : st.container = none) :
    renderBubbles t data cid st = st := by
  unfold renderBubbles
  rw [h]

/-- C10 (amended): for a snapshot with pairwise-distinct ids rendered into an
existing container whose known-id set coincides with the ids of its anchors
(as holds for every container managed by the renderer alone), the pass
re-establishes the synchronisation invariant with value exactly the snapshot
id set: known-set and anchor id set both equal the snapshot ids. -/
theorem c10_sync (t : Trig) (data : List Bubble) (cid : String) (st : RenderState)
    (el : Container) (hel : st.container = some el)
    (_hnodup : (data.map fun b => b.id).Nodup)
    (hsync : ∀ s, s ∈ st.known ↔ s ∈ el.anchors.map Anchor.dataId) :
    ∃ el2,
      (renderBubbles t data cid st).container = some el2 ∧
      (∀ s, s ∈ (renderBubbles t data cid st).known ↔ s ∈ data.map fun b => b.id) ∧
      (∀ s, s ∈ el2.anchors.map Anchor.dataId ↔ s ∈ data.map fun b => b.id) := by
  have h1 := renderBubbles_some t data cid st el hel
  set K := data.map fun b => b.id with hK
  set R := removePass K el.anchors st.known with hR
  set F := (laidOf t data cid el).foldl upsert R with hF
  obtain ⟨extra, hext, hsub⟩ := foldl_upsert_ids (laidOf t data cid el) R
  rw [← hF] at hext
  have hlaidK : ∀ s, s ∈ (laidOf t data cid el).map (fun p => p.bubble.id) ↔ s ∈ K := by
    intro s
    rw [laidOf_ids]
  have hR1 : ∀ s, s ∈ R.1.map Anchor.dataId ↔
      (∃ a ∈ el.anchors, a.dataId = s) ∧ s ∈ K := by
    intro s
    rw [hR, removePass_fst]
    constructor
    · intro h
      rcases List.mem_map.mp h with ⟨a, ha, rfl⟩
      rcases List.mem_filter.mp ha with ⟨hmem, hcont⟩
      exact ⟨⟨a, hmem, rfl⟩, by simpa using hcont⟩
    · rintro ⟨⟨a, hmem, rfl⟩, hmemK⟩
      exact List.mem_map.mpr ⟨a, List.mem_filter.mpr ⟨hmem, by simpa using hmemK⟩, rfl⟩
  have hknown1 : ∀ s, s ∈ R.2 ↔ s ∈ R.1.map Anchor.dataId := by
    intro s
    rw [hR, removePass_snd_mem]
    constructor
    · rintro ⟨hk, hall⟩
      rcases List.mem_map.mp ((hsync s).mp hk) with ⟨a, ha, rfl⟩
      have hcont := hall a ha rfl
      rw [← hR]
      exact (hR1 _).mpr ⟨⟨a, ha, rfl⟩, by simpa using hcont⟩
    · intro hmem
      rw [← hR] at hmem
      rcases (hR1 s).mp hmem with ⟨⟨a, ha, rfl⟩, hmemK⟩
      refine ⟨(hsync _).mpr (List.mem_map.mpr ⟨a, ha, rfl⟩), ?_⟩
      intro a' _ _
      simpa using hmemK
  refine ⟨{ el with anchors := F.1 }, by rw [h1], ?_, ?_⟩
  · intro s
    rw [h1]
    simp only
    constructor
    · intro hmem
      rcases foldl_upsert_known_bound (laidOf t data cid el) R s hmem with h | h
      · exact ((hR1 s).mp ((hknown1 s).mp h)).2
      · exact (hlaidK s).mp h
    · intro hmem
      rcases List.mem_map.mp ((hlaidK s).mpr hmem) with ⟨p, hp, rfl⟩
      exact foldl_upsert_known_covers (laidOf t data cid el) R
        (fun y hy => (hknown1 y).mpr hy) p hp
  · intro s
    constructor
    · intro hmem
      rw [hext] at hmem
      rcases List.mem_append.mp hmem with h | h
      · exact ((hR1 s).mp h).2
      · exact (hlaidK s).mp (hsub s h)
    · intro hmem
      rcases List.mem_map.mp ((hlaidK s).mpr hmem) with ⟨p, hp, rfl⟩
      exact foldl_upsert_covers (laidOf t data cid el) R p hp

/-! ### Renderer fixtures and witnesses -/

/-- A fresh empty container state (as after page load). -/
def wst : RenderState := ⟨some ⟨900, 680, 0, 0, []⟩, [], none⟩

/-- An anchor left over from a previous pass, with id `x`. -/
def wAnchorX : Anchor := ⟨"x", 0, 0, 0, 0, 0, "g", 0, 0⟩

/-- A state whose container holds exactly one anchor with id `x`, known. -/
def wst8 : RenderState := ⟨some ⟨900, 680, 0, 0, [wAnchorX]⟩, ["x"], none⟩

/-- A state whose container is missing. -/
def wst9 : RenderState := ⟨none, ["k"], none⟩

/-- A state whose known-set holds a stale id with no corresponding anchor:
unreachable through the renderer alone, but a legal prior state. -/
def wstStale : RenderState := ⟨some ⟨900, 680, 0, 0, []⟩, ["z"], none⟩

/-- Witness for C7 on a fresh container and a one-bubble snapshot. -/
theorem c7_idempotent_witness :
    ∃ el1 el2,
      (renderBubbles tW [wbA] "c" wst).container = some el1 ∧
      (renderBubbles tW [wbA] "c" (renderBubbles tW [wbA] "c" wst)).container = some el2 ∧
      el2.anchors.map Anchor.dataId = el1.anchors.map Anchor.dataId ∧
      (renderBubbles tW [wbA] "c" (renderBubbles tW [wbA] "c" wst)).known =
        (renderBubbles tW [wbA] "c" wst).known :=
  c7_idempotent tW [wbA] "c" wst ⟨900, 680, 0, 0, []⟩ rfl

set_option maxRecDepth 400000 in
/-- Witness for C8: the snapshot no longer contains id `x`. -/
theorem c8_removal_witness :
    ∃ el2,
      (renderBubbles tW [wbA] "c" wst8).container = some el2 ∧
      (el2.anchors.countP fun a => a.dataId == "x") = 0 ∧
      ¬ "x" ∈ (renderBubbles tW [wbA] "c" wst8).known ∧
      ∀ a ∈ (⟨900, 680, 0, 0, [wAnchorX]⟩ : Container).anchors,
        (a.dataId ∈ [wbA].map fun b => b.id) →
        a.dataId ∈ el2.anchors.map Anchor.dataId :=
  c8_removal tW [wbA] "c" wst8 ⟨900, 680, 0, 0, [wAnchorX]⟩ "x" rfl
    (by with_unfolding_all decide) (by with_unfolding_all decide)

/-- Witness for C9 at a concrete missing-container state. -/
theorem c9_missing_container_witness :
    renderBubbles tW [wbA] "c" wst9 = wst9 :=
  c9_missing_container tW [wbA] "c" wst9 rfl

set_option maxRecDepth 400000 in
/-- Counterexample to C10 as stated: from a prior state whose known-set holds
a stale id `z` with no anchor, the pass leaves `z` in the known-set although
`z` is not in the snapshot, so the known-set does not equal the snapshot id
set for every prior state. -/
theorem c10_sync_counterexample :
    "z" ∈ (renderBubbles tW [wbA] "c" wstStale).known ∧
    ¬ "z" ∈ ([wbA].map fun b => b.id) := by
  with_unfolding_all decide

/-- Witness for the amended C10 on a fresh container. -/
theorem c10_sync_witness :
    ∃ el2,
      (renderBubbles tW [wbA] "c" wst).container = some el2 ∧
      (∀ s, s ∈ (renderBubbles tW [wbA] "c" wst).known ↔ s ∈ [wbA].map fun b => b.id) ∧
      (∀ s, s ∈ el2.anchors.map Anchor.dataId ↔ s ∈ [wbA].map fun b => b.id) :=
  c10_sync tW [wbA] "c" wst ⟨900, 680, 0, 0, []⟩ rfl (by simp)
    (by intro s; simp [wst])

end ThinkingOfYou
